import Mathlib

/-!
Verification of the bytefmt package: parsing and formatting of byte
quantities with Metric (powers of 1000) and Binary (powers of 1024) units.

The development shallowly embeds the Go sources:
  * the current revision (`Size` with a `Base` field, signed `parse`,
    exact `String` formatting) in namespace `Bytefmt`;
  * the earlier revision (`Size` with a `Unit` field and the
    float64-based `Format(prec)`) in namespace `ByteUnit`.
Strings are modelled as `List Char` (the character content of Go strings;
all inputs involved are ASCII), machine integers as `ℤ` with explicit
wrapping where overflow matters, and `math/big` integers as unbounded `ℕ`/`ℤ`.
-/

/-! ### Character and decimal-digit-string helpers -/

/-- Numeric value of an ASCII digit character (Go `s[pos] - '0'`). -/
def charVal (c : Char) : ℕ := c.toNat - 48

/-- Go's digit test `'0' <= c && c <= '9'`. -/
def isDigitCh (c : Char) : Bool := 48 ≤ c.toNat && c.toNat ≤ 57

/-- The ASCII digit character for a value `0 ≤ d ≤ 9`. -/
def digitCh (d : ℕ) : Char := Char.ofNat (48 + d)

/-- Value of a big-endian decimal digit string (Go `big.Int.SetString(s, 10)`
restricted to digit strings; the empty string counts as 0, which agrees with
the source's normalization of an empty whole part to `"0"`). -/
def digitsVal (l : List Char) : ℕ := l.foldl (fun a c => 10 * a + charVal c) 0

/-- Fuel-driven decimal rendering of a natural number, most significant digit
first; the fuel is pattern-matched structurally so the kernel can evaluate it. -/
def natReprAux : ℕ → ℕ → List Char
  | 0, _ => []
  | fuel+1, n => if n = 0 then [] else natReprAux fuel (n / 10) ++ [digitCh (n % 10)]

/-- Decimal rendering of a natural number (Go `strconv.AppendInt` on nonnegative
values). -/
def natRepr (n : ℕ) : List Char := if n = 0 then ['0'] else natReprAux n n

/-- Decimal rendering of an integer (Go `strconv.AppendInt`/`FormatInt`). -/
def intRepr (n : ℤ) : List Char :=
  if n < 0 then '-' :: natRepr (-n).toNat else natRepr n.toNat

/-- ASCII lower-casing of one character. Go applies `strings.ToLower` to the
unit suffix before matching; only ASCII letters can influence a match, so
non-ASCII characters are left unchanged. -/
def lowerCh (c : Char) : Char :=
  if 65 ≤ c.toNat ∧ c.toNat ≤ 90 then Char.ofNat (c.toNat + 32) else c

/-- Go `strings.TrimRight(frac, "0")`. -/
def trimZeros (l : List Char) : List Char := (l.reverse.dropWhile (· == '0')).reverse

/-- Two's-complement wrap-around of signed 64-bit arithmetic. -/
def wrap64 (z : ℤ) : ℤ := (z + 2 ^ 63) % 2 ^ 64 - 2 ^ 63

/-- The signed 64-bit range (what `big.Int.IsInt64` checks). -/
def inR64 (z : ℤ) : Prop := -(2 ^ 63) ≤ z ∧ z ≤ 2 ^ 63 - 1

instance (z : ℤ) : Decidable (inR64 z) := by unfold inR64; infer_instance

/-- Truncating (toward-zero) division of an integer by a natural number, the
rounding `big.Int.Quo` uses and the spec's "truncated toward zero". -/
def tdivTrunc (n : ℤ) (d : ℕ) : ℤ :=
  if n < 0 then -((-n) / (d : ℤ)) else n / (d : ℤ)

namespace Bytefmt

/-! ### The current revision: `Base`-tagged sizes (src/bytefmt.go head document,
with `parseSuffix` and the suffix tables from src/unnamed/part_001). -/

/-- Go `type Base int` with `Metric Base = 1000`, `Binary Base = 1024`. -/
abbrev Base := ℤ

def Metric : Base := 1000

def Binary : Base := 1024

/-- Go `type Size struct { bytes int64; Base Base }`. -/
structure Size where
  bytes : ℤ
  base : Base
deriving DecidableEq

/-- The distinct error outcomes of `parse` (Go returns error strings; the
`invalidUnit` constructor carries the offending suffix text that the Go
message quotes with `%q`). -/
inductive ParseErr where
  | emptyInput : ParseErr
  | malformedNumber : ParseErr
  | invalidUnit : List Char → ParseErr
  | overflow : ParseErr
deriving DecidableEq

/-- Result of `parse` (Go `(*Size, error)`). -/
inductive PResult where
  | ok : Size → PResult
  | err : ParseErr → PResult
deriving DecidableEq

/-- The purely lexical information `parse` extracts before doing arithmetic:
sign, raw whole digits, raw fractional digits, and the unit-suffix text. -/
structure ScanResult where
  neg : Bool
  whole : List Char
  frac : List Char
  suffix : List Char
deriving DecidableEq

/-- Result of the lexical phase. -/
inductive SScan where
  | ok : ScanResult → SScan
  | err : ParseErr → SScan
deriving DecidableEq

/-- Sign handling of `parse` (src/bytefmt.go lines 106-111): consume one
leading `-` if present. -/
def signSplit (l : List Char) : Bool × List Char :=
  match l with
  | c :: rest => if c = '-' then (true, rest) else (false, l)
  | [] => (false, l)

/-- Fractional-part handling of `parse` (lines 123-134): after the whole
digits, consume `.` and a run of digits if a `.` is present. -/
def fracSplit (r1 : List Char) : List Char × List Char :=
  match r1 with
  | c :: rest =>
    if c = '.' then (rest.takeWhile isDigitCh, rest.dropWhile isDigitCh) else ([], r1)
  | [] => ([], r1)

/-- Optional single space between number and suffix (lines 145-148). -/
def spaceSkip (r2 : List Char) : List Char :=
  match r2 with
  | c :: rest => if c = ' ' then rest else r2
  | [] => r2

/-- The lexical phase of Go `parse` (src/bytefmt.go lines 100-151): empty-input
check, optional `-`, a run of digits, an optional `.` plus a run of digits,
the malformed-number check, one optional space, and the remainder as suffix. -/
def scan (l : List Char) : SScan :=
  if l = [] then .err .emptyInput
  else
    let s := signSplit l
    let whole := s.2.takeWhile isDigitCh
    let r1 := s.2.dropWhile isDigitCh
    let fr := fracSplit r1
    if whole = [] ∧ fr.1 = [] then .err .malformedNumber
    else .ok ⟨s.1, whole, fr.1, spaceSkip fr.2⟩

/-- Result of `parseSuffix` (Go `(int, Base, error)`). -/
inductive SuffixRes where
  | ok : ℕ → Base → SuffixRes
  | err : ParseErr → SuffixRes
deriving DecidableEq

/-- Go `parseSuffix` (src/unnamed/part_001 lines 217-248): case-insensitive
match of the suffix text against the closed table; an unmatched suffix yields
the invalid-unit error carrying the original (un-lowered) text. -/
def parseSuffix (s : List Char) : SuffixRes :=
  let t := s.map lowerCh
  if t = [] ∨ t = "b".data then .ok 0 Metric
  else if t = "kb".data ∨ t = "k".data then .ok 1 Metric
  else if t = "mb".data ∨ t = "m".data then .ok 2 Metric
  else if t = "gb".data ∨ t = "g".data then .ok 3 Metric
  else if t = "tb".data ∨ t = "t".data then .ok 4 Metric
  else if t = "pb".data ∨ t = "p".data then .ok 5 Metric
  else if t = "eb".data ∨ t = "e".data then .ok 6 Metric
  else if t = "kib".data then .ok 1 Binary
  else if t = "mib".data then .ok 2 Binary
  else if t = "gib".data then .ok 3 Binary
  else if t = "tib".data then .ok 4 Binary
  else if t = "pib".data then .ok 5 Binary
  else if t = "eib".data then .ok 6 Binary
  else .err (.invalidUnit s)

/-- The scale factor `1000^exp` or `1024^exp` (Go `scale.Exp(tenPow3, ...)` /
`scale.Exp(twoPow10, ...)`; `parseSuffix` only ever produces Metric or
Binary). -/
def scalePow (base : Base) (exp : ℕ) : ℕ := (if base = Metric then 1000 else 1024) ^ exp

/-- Go `parse` (src/bytefmt.go lines 99-191). After the lexical phase it trims
trailing zeros from the fractional part (the empty whole part is normalized to
`"0"` in Go, which leaves the numeric value unchanged: `digitsVal [] = 0`),
resolves the suffix, computes
`(whole * 10^len(frac) + frac) * scale / 10^len(frac)` in unbounded integers
(skipping the division when the trimmed fraction is empty), applies the sign,
and finally checks `IsInt64`. -/
def parse (l : List Char) : PResult :=
  match scan l with
  | .err e => .err e
  | .ok r =>
    match parseSuffix r.suffix with
    | .err e => .err e
    | .ok exp base =>
      let frac := trimZeros r.frac
      let scale := scalePow base exp
      let mag : ℕ :=
        if frac = [] then digitsVal r.whole * scale
        else
          let prec := 10 ^ frac.length
          (digitsVal r.whole * prec + digitsVal frac) * scale / prec
      let v : ℤ := if r.neg then -(mag : ℤ) else (mag : ℤ)
      if inR64 v then .ok ⟨v, base⟩ else .err .overflow

/-- The claim-level exact numerator `±(whole * 10^len(frac) + frac) * scale`
over the RAW (untrimmed) fractional digits. -/
def exactNum (r : ScanResult) (exp : ℕ) (base : Base) : ℤ :=
  (if r.neg then -1 else 1) *
    ((digitsVal r.whole * 10 ^ r.frac.length + digitsVal r.frac) * scalePow base exp)

/-- The claim-level denominator `10^len(frac)` over the raw fractional digits. -/
def exactDen (r : ScanResult) : ℕ := 10 ^ r.frac.length

/-- The exact mathematical byte value of a scanned number, truncated toward
zero: `(whole * 10^len(frac) + frac) * scale / 10^len(frac)` with the sign
applied. -/
def exactBytes (r : ScanResult) (exp : ℕ) (base : Base) : ℤ :=
  tdivTrunc (exactNum r exp base) (exactDen r)

/-- Go `Cmp` (src/bytefmt.go lines 46-55). -/
def cmp (s y : Size) : ℤ :=
  if s.bytes = y.bytes then 0 else if s.bytes < y.bytes then -1 else 1

/-- Go `Add` (line 58): `s.bytes += y.bytes` on int64, two's-complement wrap. -/
def add (s y : Size) : Size := ⟨wrap64 (s.bytes + y.bytes), s.base⟩

/-- Go `Sub` (line 61): `s.bytes -= y.bytes` on int64, two's-complement wrap. -/
def sub (s y : Size) : Size := ⟨wrap64 (s.bytes - y.bytes), s.base⟩

/-- Go `Neg` (line 64): `s.bytes = -s.bytes` on int64, two's-complement wrap. -/
def neg (s : Size) : Size := ⟨wrap64 (-s.bytes), s.base⟩

/-- Go `metricSuffixes` (src/unnamed/part_001 lines 188-196). -/
def metricSuffixes : List (List Char) :=
  ["B".data, "kB".data, "MB".data, "GB".data, "TB".data, "PB".data, "EB".data]

/-- Go `binarySuffixes` (src/unnamed/part_001 lines 207-215). -/
def binarySuffixes : List (List Char) :=
  ["B".data, "KiB".data, "MiB".data, "GiB".data, "TiB".data, "PiB".data, "EiB".data]

/-- The scaling loop of Go `String` (lines 201-204 / 207-210):
`for (mant >= 1000 || mant <= -1000) && mant%d == 0 && exp < 7 { exp++; mant /= d }`.
The fuel starts at 7 so that running out of fuel is exactly the `exp < 7`
guard. The in-loop division is exact (`mant % d == 0`), so Go's
truncating division and Lean's `Int` division agree. -/
def scaleLoop (d : ℤ) : ℕ → ℤ → ℕ → ℤ × ℕ
  | 0, mant, exp => (mant, exp)
  | fuel+1, mant, exp =>
    if (1000 ≤ mant ∨ mant ≤ -1000) ∧ mant % d = 0 then
      scaleLoop d fuel (mant / d) (exp + 1)
    else (mant, exp)

/-- The unit index `String` selects (0 = Byte, ..., 6 = EB/EiB). For an invalid
base it is irrelevant (`String` panics there); we default to the metric loop. -/
def selectedExp (s : Size) : ℕ :=
  if s.base = 0 ∨ s.base = Metric then (scaleLoop 1000 7 s.bytes 0).2
  else (scaleLoop 1024 7 s.bytes 0).2

/-- Go `String` (src/bytefmt.go lines 194-221). `none` models the
`panic("invalid base")` branch. Out-of-range suffix indexing (impossible for
int64 inputs, see `string_total`) is modelled with a `[]` default. -/
def sizeString (s : Size) : Option (List Char) :=
  if s.base = 0 ∨ s.base = Metric then
    let p := scaleLoop 1000 7 s.bytes 0
    some (intRepr p.1 ++ ' ' :: metricSuffixes.getD p.2 [])
  else if s.base = Binary then
    let p := scaleLoop 1024 7 s.bytes 0
    some (intRepr p.1 ++ ' ' :: binarySuffixes.getD p.2 [])
  else none

end Bytefmt

namespace ByteUnit

/-! ### The earlier revision: `Unit`-tagged sizes (third document of
src/bytefmt.go; `Unit`, `inferUnit` and `suffixes` from the first document of
src/unnamed/part_001). Its `Format` renders non-byte units through float64;
the float64 arithmetic is modelled exactly with integer numerator/denominator
pairs and round-to-nearest-ties-to-even. -/

/-- Go `type Unit int64` (named `Unit'` because `Unit` is taken in Lean). -/
abbrev Unit' := ℤ

def Byte : Unit' := 1

def KB : Unit' := 1000 * Byte
def MB : Unit' := 1000 * KB
def GB : Unit' := 1000 * MB
def TB : Unit' := 1000 * GB
def PB : Unit' := 1000 * TB
def EB : Unit' := 1000 * PB

def KiB : Unit' := 1024 * Byte
def MiB : Unit' := 1024 * KiB
def GiB : Unit' := 1024 * MiB
def TiB : Unit' := 1024 * GiB
def PiB : Unit' := 1024 * TiB
def EiB : Unit' := 1024 * PiB

def Metric : Unit' := 0
def Binary : Unit' := -1

/-- Go `type Size struct { bytes int64; unit Unit }`. -/
structure Size where
  bytes : ℤ
  unit : Unit'
deriving DecidableEq

/-- Go `suffixes` map (src/unnamed/part_001 lines 50-64); a missing key yields
the empty string, as a Go map lookup does. -/
def suffixes (u : Unit') : List Char :=
  if u = Byte then "B".data
  else if u = KB then "kB".data
  else if u = MB then "MB".data
  else if u = GB then "GB".data
  else if u = TB then "TB".data
  else if u = PB then "PB".data
  else if u = EB then "EB".data
  else if u = KiB then "KiB".data
  else if u = MiB then "MiB".data
  else if u = GiB then "GiB".data
  else if u = TiB then "TiB".data
  else if u = PiB then "PiB".data
  else if u = EiB then "EiB".data
  else []

/-- Go `inferUnit` (src/unnamed/part_001 lines 110-155). The initial
`bytes = -bytes` is int64 negation, which wraps for the minimum value; the
model applies `wrap64` accordingly. -/
def inferUnit (bytes : ℤ) (unit : Unit') : Unit' :=
  let b := if bytes < 0 then wrap64 (-bytes) else bytes
  if unit = Metric then
    if b < KB then Byte
    else if b < MB then KB
    else if b < GB then MB
    else if b < TB then GB
    else if b < PB then TB
    else if b < EB then PB
    else EB
  else if unit = Binary then
    if b < KiB then Byte
    else if b < MiB then KiB
    else if b < GiB then MiB
    else if b < TiB then GiB
    else if b < PiB then TiB
    else if b < EiB then PiB
    else EiB
  else unit

/-- Floor of log2 of a positive natural number (fuel-driven so the kernel can
evaluate it). -/
def log2Fuel : ℕ → ℕ → ℕ
  | 0, _ => 0
  | fuel+1, n => if n < 2 then 0 else log2Fuel fuel (n / 2) + 1

/-- Floor of log2 of a positive natural number. -/
def natLog2 (n : ℕ) : ℕ := log2Fuel n n

/-- Round the fraction `p / q` (with `q ≠ 0`) to the nearest natural number,
ties to even: the rounding IEEE 754 prescribes and Go's `strconv` decimal
rounding performs. -/
def rneFrac (p q : ℕ) : ℕ :=
  let n := p / q
  let r := p % q
  if 2 * r < q then n
  else if q < 2 * r then n + 1
  else if n % 2 = 0 then n else n + 1

/-- Floor of log2 of the positive rational `a / b`. -/
def ratLog2 (a b : ℕ) : ℤ :=
  let c : ℤ := (natLog2 a : ℤ) - natLog2 b
  if 0 ≤ c then (if a < b * 2 ^ c.toNat then c - 1 else c)
  else (if a * 2 ^ (-c).toNat < b then c - 1 else c)

/-- The binary64 value nearest to the positive rational `a / b` (round to
nearest, ties to even), returned as `(m, t)` meaning `m / 2^t` with
`2^52 ≤ m ≤ 2^53`. Exponents are unbounded: overflow and subnormals are not
modelled, which is faithful for the normal range all uses stay in. -/
def double64 (a b : ℕ) : ℕ × ℤ :=
  let e := ratLog2 a b
  let t : ℤ := 52 - e
  if 0 ≤ t then (rneFrac (a * 2 ^ t.toNat) b, t)
  else (rneFrac a (b * 2 ^ (-t).toNat), t)

/-- Go `float64(n)` for a nonnegative integer: exact below 2^53, rounded to
nearest even above. -/
def intToDouble (n : ℕ) : ℕ × ℤ := if n = 0 then (0, 1) else double64 n 1

/-- IEEE binary64 division of the double `(m, t)` by a positive integer `u`
that is exactly representable as a double (every unit scale is): the correctly
rounded true quotient. -/
def divDouble : ℕ × ℤ → ℕ → ℕ × ℤ
  | (m, t), u =>
    if m = 0 then (0, 1)
    else if 0 ≤ t then double64 m (u * 2 ^ t.toNat)
    else double64 (m * 2 ^ (-t).toNat) u

/-- Go `strconv.FormatFloat(x, 'f', prec, 64)` for the nonnegative double
`x = m / 2^t` and `prec ≥ 0`: the exact value of the double rounded to `prec`
decimal places (nearest, ties to even), rendered with exactly `prec` digits
after the point (none and no point when `prec = 0`). -/
def formatFixed (m : ℕ) (t : ℤ) (prec : ℕ) : List Char :=
  let r := if 0 ≤ t then rneFrac (m * 10 ^ prec) (2 ^ t.toNat)
           else m * 10 ^ prec * 2 ^ (-t).toNat
  let whole := r / 10 ^ prec
  let fr := r % 10 ^ prec
  if prec = 0 then natRepr whole
  else natRepr whole ++ '.' :: (List.replicate (prec - (natRepr fr).length) '0' ++ natRepr fr)

/-- Go `Size.Format` of the earlier revision (third document of src/bytefmt.go,
lines 722-734), for non-negative precision: infer the unit; if it is `Byte`,
render the byte count exactly with `strconv.FormatInt` (no decimal point, no
rounding, precision ignored); otherwise render
`float64(s.bytes)/float64(unit)` at fixed precision followed by a space and
the unit suffix. The `prec = -1` shortest-digits path of `strconv` is not
modelled; no claim depends on it. -/
def sizeFormat (s : Size) (prec : ℕ) : List Char :=
  let u := inferUnit s.bytes s.unit
  if u = Byte then intRepr s.bytes
  else
    let d := divDouble (intToDouble s.bytes.natAbs) u.toNat
    (if s.bytes < 0 then ['-'] else []) ++ formatFixed d.1 d.2 prec ++ ' ' :: suffixes u

end ByteUnit

/-! ### Arithmetic lemmas about digit strings -/

theorem digitsVal_foldl (l : List Char) (a : ℕ) :
    l.foldl (fun x c => 10 * x + charVal c) a = a * 10 ^ l.length + digitsVal l := by
  induction l generalizing a with
  | nil => simp [digitsVal]
  | cons c t ih =>
    simp only [List.foldl_cons, List.length_cons, digitsVal]
    rw [ih (10 * a + charVal c), ih (10 * 0 + charVal c)]
    ring

theorem digitsVal_append (a b : List Char) :
    digitsVal (a ++ b) = digitsVal a * 10 ^ b.length + digitsVal b := by
  unfold digitsVal
  rw [List.foldl_append, digitsVal_foldl]
  rfl

theorem digitsVal_replicate_zero (m : ℕ) : digitsVal (List.replicate m '0') = 0 := by
  induction m with
  | zero => rfl
  | succ k ih =>
    have : List.replicate (k+1) '0' = List.replicate k '0' ++ ['0'] := by
      rw [List.replicate_succ' k '0']
    rw [digitsVal, this, List.foldl_append]
    have h0 : digitsVal (List.replicate k '0') = 0 := ih
    rw [digitsVal] at h0
    rw [h0]
    rfl

theorem trimZeros_decomp (l : List Char) :
    ∃ m, l = trimZeros l ++ List.replicate m '0' := by
  have hsplit := List.takeWhile_append_dropWhile (p := (· == '0')) (l := l.reverse)
  have htake : ∀ c ∈ l.reverse.takeWhile (· == '0'), c = '0' := by
    intro c hc
    have := List.mem_takeWhile_imp hc
    simpa using this
  have hrep := List.eq_replicate_of_mem htake
  refine ⟨(l.reverse.takeWhile (· == '0')).length, ?_⟩
  unfold trimZeros
  conv_lhs => rw [← List.reverse_reverse l, ← hsplit]
  rw [List.reverse_append]
  congr 1
  rw [hrep, List.reverse_replicate, List.length_replicate]

theorem digitsVal_trimZeros (l : List Char) :
    ∃ m, l.length = (trimZeros l).length + m ∧
      digitsVal l = digitsVal (trimZeros l) * 10 ^ m := by
  obtain ⟨m, hm⟩ := trimZeros_decomp l
  refine ⟨m, ?_, ?_⟩
  · conv_lhs => rw [hm]
    simp
  · conv_lhs => rw [hm]
    rw [digitsVal_append, digitsVal_replicate_zero, List.length_replicate, Nat.add_zero]

/-- The code's scaled magnitude (trimmed fraction, division skipped when the
trimmed fraction is empty) equals the spec formula over the raw fraction. -/
theorem mag_code_eq_spec (w frac : List Char) (scale : ℕ) :
    (if trimZeros frac = [] then digitsVal w * scale
     else (digitsVal w * 10 ^ (trimZeros frac).length + digitsVal (trimZeros frac)) * scale /
       10 ^ (trimZeros frac).length)
    = (digitsVal w * 10 ^ frac.length + digitsVal frac) * scale / 10 ^ frac.length := by
  obtain ⟨m, hlen, hval⟩ := digitsVal_trimZeros frac
  set t := trimZeros frac with ht
  by_cases hnil : t = []
  · rw [if_pos hnil]
    rw [hnil] at hlen hval
    simp only [List.length_nil, Nat.zero_add] at hlen
    have hv0 : digitsVal frac = 0 := by
      rw [hval]; simp [digitsVal]
    rw [hv0, hlen, Nat.add_zero]
    rw [mul_comm (digitsVal w) (10 ^ m), mul_assoc]
    rw [Nat.mul_div_cancel_left _ (Nat.pos_pow_of_pos m (by norm_num))]
  · rw [if_neg hnil, hlen, hval]
    have : (digitsVal w * 10 ^ (t.length + m) + digitsVal t * 10 ^ m) * scale
        = ((digitsVal w * 10 ^ t.length + digitsVal t) * scale) * 10 ^ m := by
      rw [pow_add]; ring
    rw [this, pow_add]
    rw [Nat.mul_div_mul_right _ _ (Nat.pos_pow_of_pos m (by norm_num))]

theorem tdivTrunc_natCast (a d : ℕ) : tdivTrunc (a : ℤ) d = ((a / d : ℕ) : ℤ) := by
  unfold tdivTrunc
  rw [if_neg (by omega), Int.natCast_div]

theorem tdivTrunc_neg_natCast (a d : ℕ) :
    tdivTrunc (-(a : ℤ)) d = -((a / d : ℕ) : ℤ) := by
  unfold tdivTrunc
  by_cases ha : a = 0
  · subst ha; simp
  · rw [if_pos (by omega), neg_neg, Int.natCast_div]

/-! ### Lemmas about decimal rendering and digit scanning -/

theorem charVal_digitCh {d : ℕ} (h : d < 10) : charVal (digitCh d) = d := by
  interval_cases d <;> decide

theorem isDigitCh_digitCh {d : ℕ} (h : d < 10) : isDigitCh (digitCh d) = true := by
  interval_cases d <;> decide

theorem natReprAux_spec : ∀ fuel n : ℕ, n ≤ fuel →
    digitsVal (natReprAux fuel n) = n
    ∧ (∀ c ∈ natReprAux fuel n, isDigitCh c = true)
    ∧ (n ≠ 0 → natReprAux fuel n ≠ []) := by
  intro fuel
  induction fuel with
  | zero =>
    intro n hn
    interval_cases n
    refine ⟨rfl, ?_, ?_⟩
    · intro c hc
      cases hc
    · intro h
      exact absurd rfl h
  | succ f ih =>
    intro n hn
    by_cases h0 : n = 0
    · subst h0
      refine ⟨rfl, ?_, ?_⟩
      · intro c hc
        cases hc
      · intro h
        exact absurd rfl h
    · have hstep : natReprAux (f + 1) n = natReprAux f (n / 10) ++ [digitCh (n % 10)] := by
        rw [show natReprAux (f + 1) n
            = if n = 0 then [] else natReprAux f (n / 10) ++ [digitCh (n % 10)] from rfl]
        rw [if_neg h0]
      have hdiv : n / 10 ≤ f := by
        have := Nat.div_lt_self (Nat.pos_of_ne_zero h0) (by norm_num : 1 < 10)
        omega
      obtain ⟨ihv, ihd, _⟩ := ih (n / 10) hdiv
      have hmod : n % 10 < 10 := Nat.mod_lt n (by norm_num)
      have hone : digitsVal [digitCh (n % 10)] = n % 10 := by
        unfold digitsVal
        simp [charVal_digitCh hmod]
      refine ⟨?_, ?_, ?_⟩
      · rw [hstep, digitsVal_append, ihv, hone]
        simp only [List.length_singleton, pow_one]
        omega
      · intro c hc
        rw [hstep] at hc
        rcases List.mem_append.1 hc with hm | hm
        · exact ihd c hm
        · rw [List.mem_singleton.1 hm]
          exact isDigitCh_digitCh hmod
      · intro _
        rw [hstep]
        simp

theorem natRepr_val (n : ℕ) : digitsVal (natRepr n) = n := by
  by_cases h0 : n = 0
  · subst h0
    decide
  · unfold natRepr
    rw [if_neg h0]
    exact (natReprAux_spec n n le_rfl).1

theorem natRepr_digits (n : ℕ) : ∀ c ∈ natRepr n, isDigitCh c = true := by
  by_cases h0 : n = 0
  · subst h0
    decide
  · unfold natRepr
    rw [if_neg h0]
    exact (natReprAux_spec n n le_rfl).2.1

theorem natRepr_ne_nil (n : ℕ) : natRepr n ≠ [] := by
  by_cases h0 : n = 0
  · subst h0
    decide
  · unfold natRepr
    rw [if_neg h0]
    exact (natReprAux_spec n n le_rfl).2.2 h0

theorem takeWhile_all_append (p : Char → Bool) (l r : List Char)
    (hl : ∀ c ∈ l, p c = true) (hr : ∀ c cs, r = c :: cs → p c = false) :
    (l ++ r).takeWhile p = l ∧ (l ++ r).dropWhile p = r := by
  induction l with
  | nil =>
    simp only [List.nil_append]
    cases r with
    | nil => exact ⟨rfl, rfl⟩
    | cons c cs =>
      have hc := hr c cs rfl
      constructor
      · simp [List.takeWhile_cons, hc]
      · simp [List.dropWhile_cons, hc]
  | cons c t ih =>
    have hc : p c = true := hl c (by simp)
    have ih2 := ih (fun x hx => hl x (by simp [hx]))
    constructor
    · simp [List.cons_append, List.takeWhile_cons, hc, ih2.1]
    · simp [List.cons_append, List.dropWhile_cons, hc, ih2.2]

namespace Bytefmt

/-- Master lemma: on a string whose number scans and whose suffix resolves,
`parse` returns exactly the truncated spec value when it fits in int64 and
the overflow error otherwise. -/
theorem parse_spec (l : List Char) (r : ScanResult) (exp : ℕ) (base : Base)
    (hs : scan l = .ok r) (hp : parseSuffix r.suffix = .ok exp base) :
    parse l = if inR64 (exactBytes r exp base) then .ok ⟨exactBytes r exp base, base⟩
              else .err .overflow := by
  unfold parse
  rw [hs]
  dsimp only
  rw [hp]
  dsimp only
  have hmag := mag_code_eq_spec r.whole r.frac (scalePow base exp)
  have hexact : exactBytes r exp base
      = (if r.neg then
          -(((digitsVal r.whole * 10 ^ r.frac.length + digitsVal r.frac) * scalePow base exp
              / 10 ^ r.frac.length : ℕ) : ℤ)
        else
          (((digitsVal r.whole * 10 ^ r.frac.length + digitsVal r.frac) * scalePow base exp
              / 10 ^ r.frac.length : ℕ) : ℤ)) := by
    unfold exactBytes exactNum exactDen
    have hN : ((digitsVal r.whole : ℤ) * 10 ^ r.frac.length + (digitsVal r.frac : ℤ)) *
        ((scalePow base exp : ℕ) : ℤ)
        = (((digitsVal r.whole * 10 ^ r.frac.length + digitsVal r.frac) * scalePow base exp : ℕ) : ℤ) := by
      push_cast
      ring
    by_cases hn : r.neg
    · rw [if_pos hn, if_pos hn, neg_one_mul, hN, tdivTrunc_neg_natCast]
    · rw [if_neg hn, if_neg hn, one_mul, hN, tdivTrunc_natCast]
  rw [hexact, ← hmag]

/-- C1: for every input whose digits and unit suffix resolve, `parse` computes
the byte count exactly as `(whole * 10^len(frac) + frac) * scale / 10^len(frac)`
in unbounded integers, truncating any remaining fraction toward zero; in
particular `Parse("123.456 GB")` yields 123,456,000,000 bytes with Metric base
and `Parse("123.456 GiB")` yields 132,559,870,623 bytes with Binary base. -/
theorem parse_exact_arithmetic :
    (∀ (l : List Char) (r : ScanResult) (exp : ℕ) (base : Base) (sz : Size),
      scan l = .ok r → parseSuffix r.suffix = .ok exp base → parse l = .ok sz →
      sz.bytes = exactBytes r exp base ∧ sz.base = base)
    ∧ parse "123.456 GB".data = .ok ⟨123456000000, Metric⟩
    ∧ parse "123.456 GiB".data = .ok ⟨132559870623, Binary⟩ := by
  refine ⟨?_, by decide, by decide⟩
  intro l r exp base sz h1 h2 h3
  rw [parse_spec l r exp base h1 h2] at h3
  by_cases h : inR64 (exactBytes r exp base)
  · rw [if_pos h] at h3
    cases h3
    exact ⟨rfl, rfl⟩
  · rw [if_neg h] at h3
    cases h3

/-- Witness for `parse_exact_arithmetic`: instantiated at the concrete input
`"1.5 kB"`, whose scan result and suffix resolution are discharged by
evaluation. -/
theorem parse_exact_arithmetic_witness :
    (Size.mk 1500 Metric).bytes
        = exactBytes ⟨false, "1".data, "5".data, "kB".data⟩ 1 Metric
    ∧ (Size.mk 1500 Metric).base = Metric :=
  parse_exact_arithmetic.1 "1.5 kB".data ⟨false, "1".data, "5".data, "kB".data⟩ 1 Metric
    ⟨1500, Metric⟩ (by decide) (by decide) (by decide)

/-- C2: on an input whose number scans and whose suffix resolves, `parse`
fails with the overflow error exactly when the exact mathematical value
(truncated toward zero, as the package documents) lies outside the signed
64-bit range; in particular `Parse("9223372036854775808")` overflows while
`Parse("7.99999999999999999914 EiB")` returns max int64. -/
theorem parse_overflow_iff :
    (∀ (l : List Char) (r : ScanResult) (exp : ℕ) (base : Base),
      scan l = .ok r → parseSuffix r.suffix = .ok exp base →
      (parse l = .err .overflow ↔
        exactBytes r exp base < -(2 ^ 63) ∨ 2 ^ 63 - 1 < exactBytes r exp base))
    ∧ parse "9223372036854775808".data = .err .overflow
    ∧ parse "7.99999999999999999914 EiB".data = .ok ⟨9223372036854775807, Binary⟩ := by
  refine ⟨?_, by decide, by decide⟩
  intro l r exp base h1 h2
  rw [parse_spec l r exp base h1 h2]
  by_cases h : inR64 (exactBytes r exp base)
  · rw [if_pos h]
    unfold inR64 at h
    constructor
    · intro hc
      cases hc
    · intro hor
      exact absurd hor (by omega)
  · rw [if_neg h]
    unfold inR64 at h
    push_neg at h
    constructor
    · intro _
      omega
    · intro _
      rfl

/-- Witness for `parse_overflow_iff`: instantiated at the concrete overflowing
input `"9223372036854775808"`. -/
theorem parse_overflow_iff_witness :
    parse "9223372036854775808".data = .err .overflow ↔
      exactBytes ⟨false, "9223372036854775808".data, [], []⟩ 0 Metric < -(2 ^ 63)
      ∨ 2 ^ 63 - 1 < exactBytes ⟨false, "9223372036854775808".data, [], []⟩ 0 Metric :=
  parse_overflow_iff.1 "9223372036854775808".data
    ⟨false, "9223372036854775808".data, [], []⟩ 0 Metric (by decide) (by decide)

/-- C4: `parse` classifies invalid inputs by kind: the empty string yields the
empty-input error, `" B"` (no digits at all) the malformed-number error, and
`"1 tUb"` the invalid-unit error carrying the offending suffix text `"tUb"`
(which the Go error message quotes). -/
theorem parse_error_kinds :
    parse "".data = .err .emptyInput
    ∧ parse " B".data = .err .malformedNumber
    ∧ parse "1 tUb".data = .err (.invalidUnit "tUb".data) := by
  refine ⟨by decide, by decide, by decide⟩

/-- C5: `Cmp` is antisymmetric, agrees with the sign of the exact integer
difference of the byte counts, and never depends on the `Base` fields: sizes
with equal byte counts compare equal whatever their bases. -/
theorem cmp_antisymm_sign_base_irrelevant :
    (∀ a b : Size, cmp a b = -cmp b a)
    ∧ (∀ a b : Size, cmp a b = Int.sign (a.bytes - b.bytes))
    ∧ (∀ x y b1 b2 b1' b2' : ℤ, cmp ⟨x, b1⟩ ⟨y, b2⟩ = cmp ⟨x, b1'⟩ ⟨y, b2'⟩)
    ∧ (∀ x b1 b2 : ℤ, cmp ⟨x, b1⟩ ⟨x, b2⟩ = 0) := by
  have hsign : ∀ a b : Size, cmp a b = Int.sign (a.bytes - b.bytes) := by
    intro a b
    unfold cmp
    rcases lt_trichotomy a.bytes b.bytes with h | h | h
    · rw [if_neg (by omega), if_pos h, Int.sign_eq_neg_one_of_neg (by omega)]
    · rw [if_pos h, h, sub_self, Int.sign_zero]
    · rw [if_neg (by omega), if_neg (by omega), Int.sign_eq_one_of_pos (by omega)]
  refine ⟨?_, hsign, ?_, ?_⟩
  · intro a b
    rw [hsign a b, hsign b a]
    rcases lt_trichotomy a.bytes b.bytes with h | h | h
    · rw [Int.sign_eq_neg_one_of_neg (by omega), Int.sign_eq_one_of_pos (by omega)]
    · rw [h, sub_self, Int.sign_zero, neg_zero]
    · rw [Int.sign_eq_one_of_pos (by omega), Int.sign_eq_neg_one_of_neg (by omega), neg_neg]
  · intro x y b1 b2 b1' b2'
    rw [hsign ⟨x, b1⟩ ⟨y, b2⟩, hsign ⟨x, b1'⟩ ⟨y, b2'⟩]
  · intro x b1 b2
    unfold cmp
    rw [if_pos rfl]

/-- C6 counterexample: `Parse(".10000 kB")` yields 100 bytes, not the
100,000 bytes that "100 kB worth of bytes" denotes. -/
theorem parse_dot_zeros_counterexample :
    parse ".10000 kB".data = .ok ⟨100, Metric⟩ ∧ (100 : ℤ) ≠ 100000 := by
  refine ⟨by decide, by decide⟩

/-- C6 (amended): leading and trailing zeros in the digit groups are
semantically ignored: `Parse(".10000 kB")` and `Parse("0000.1 kB")` both
succeed and yield the same byte count, 100 bytes (0.1 kB). -/
theorem parse_zeros_ignored :
    parse ".10000 kB".data = .ok ⟨100, Metric⟩
    ∧ parse "0000.1 kB".data = .ok ⟨100, Metric⟩ := by
  refine ⟨by decide, by decide⟩

/-- C8: `Add`, `Sub` and `Neg` operate on the bytes field only and keep the
receiver's base; results stay in the signed 64-bit range and are congruent to
the exact integer result modulo 2^64 (two's-complement wrap-around, no error);
in particular adding MaxInt64 and MinInt64 yields exactly -1, and adding 1 to
MaxInt64 wraps to MinInt64. -/
theorem arith_preserves_base_wraps :
    (∀ s y : Size, (add s y).base = s.base ∧ (sub s y).base = s.base ∧ (neg s).base = s.base)
    ∧ (∀ s y : Size, inR64 (add s y).bytes
        ∧ (add s y).bytes % 2 ^ 64 = (s.bytes + y.bytes) % 2 ^ 64)
    ∧ (∀ s y : Size, inR64 (sub s y).bytes
        ∧ (sub s y).bytes % 2 ^ 64 = (s.bytes - y.bytes) % 2 ^ 64)
    ∧ (∀ s : Size, inR64 (neg s).bytes
        ∧ (neg s).bytes % 2 ^ 64 = (-s.bytes) % 2 ^ 64)
    ∧ (add ⟨2 ^ 63 - 1, Metric⟩ ⟨-(2 ^ 63), Binary⟩).bytes = -1
    ∧ (add ⟨2 ^ 63 - 1, Metric⟩ ⟨1, Metric⟩).bytes = -(2 ^ 63) := by
  refine ⟨fun s y => ⟨rfl, rfl, rfl⟩, ?_, ?_, ?_, by decide, by decide⟩
  · intro s y
    unfold add wrap64 inR64
    constructor <;> dsimp only <;> omega
  · intro s y
    unfold sub wrap64 inR64
    constructor <;> dsimp only <;> omega
  · intro s
    unfold neg wrap64 inR64
    constructor <;> dsimp only <;> omega

theorem signSplit_digit (c : Char) (l : List Char) (h : isDigitCh c = true) :
    signSplit (c :: l) = (false, c :: l) := by
  rw [show signSplit (c :: l) = if c = '-' then (true, l) else (false, c :: l) from rfl]
  rw [if_neg]
  intro he
  rw [he] at h
  exact absurd h (by decide)

theorem fracSplit_space (r : List Char) : fracSplit (' ' :: r) = ([], ' ' :: r) := by
  rw [show fracSplit (' ' :: r)
      = if ' ' = '.' then (r.takeWhile isDigitCh, r.dropWhile isDigitCh) else ([], ' ' :: r)
    from rfl]
  rw [if_neg (by decide)]

theorem spaceSkip_space (r : List Char) : spaceSkip (' ' :: r) = r := by
  rw [show spaceSkip (' ' :: r) = if ' ' = ' ' then r else ' ' :: r from rfl]
  rw [if_pos rfl]

/-- Scanning a string of the shape `[-]digits<space>suffix` recovers exactly
its parts. -/
theorem scan_shape (neg : Bool) (w suf : List Char)
    (hw : w ≠ []) (hd : ∀ c ∈ w, isDigitCh c = true) :
    scan ((if neg then ['-'] else []) ++ (w ++ ' ' :: suf)) = .ok ⟨neg, w, [], suf⟩ := by
  obtain ⟨c, t, rfl⟩ := List.exists_cons_of_ne_nil hw
  have hsplit := takeWhile_all_append isDigitCh (c :: t) (' ' :: suf) hd
    (by intro x xs hx; cases hx; decide)
  have htake : List.takeWhile isDigitCh (c :: (t ++ ' ' :: suf)) = c :: t := by
    have := hsplit.1
    rwa [List.cons_append] at this
  have hdrop : List.dropWhile isDigitCh (c :: (t ++ ' ' :: suf)) = ' ' :: suf := by
    have := hsplit.2
    rwa [List.cons_append] at this
  have hsign := signSplit_digit c (t ++ ' ' :: suf) (hd c (by simp))
  cases neg with
  | false =>
    show scan (c :: (t ++ ' ' :: suf)) = .ok ⟨false, c :: t, [], suf⟩
    unfold scan
    rw [if_neg (by simp)]
    dsimp only
    rw [hsign]
    dsimp only
    rw [htake, hdrop, fracSplit_space]
    dsimp only
    rw [if_neg (by simp), spaceSkip_space]
  | true =>
    show scan ('-' :: c :: (t ++ ' ' :: suf)) = .ok ⟨true, c :: t, [], suf⟩
    unfold scan
    rw [if_neg (by simp)]
    dsimp only
    rw [show signSplit ('-' :: c :: (t ++ ' ' :: suf)) = (true, c :: (t ++ ' ' :: suf)) from rfl]
    dsimp only
    rw [htake, hdrop, fracSplit_space]
    dsimp only
    rw [if_neg (by simp), spaceSkip_space]

theorem tdivTrunc_one (n : ℤ) : tdivTrunc n 1 = n := by
  unfold tdivTrunc
  split <;> simp

/-- The exact byte value of a scanned number with no fractional digits and the
byte suffix is just its signed whole part. -/
theorem exactBytes_nofrac (neg : Bool) (w suf : List Char) :
    exactBytes ⟨neg, w, [], suf⟩ 0 Metric
      = if neg then -(digitsVal w : ℤ) else (digitsVal w : ℤ) := by
  unfold exactBytes exactNum exactDen scalePow
  dsimp only
  cases neg with
  | false =>
    norm_num [show digitsVal [] = 0 from rfl, tdivTrunc_one]
  | true =>
    norm_num [show digitsVal [] = 0 from rfl, tdivTrunc_one]

/-- Parsing the decimal rendering of an in-range integer followed by `" B"`
recovers the integer exactly, with Metric base. -/
theorem parse_intRepr_B (n : ℤ) (h1 : -(2 ^ 63) ≤ n) (h2 : n ≤ 2 ^ 63 - 1) :
    parse (intRepr n ++ ' ' :: 'B' :: []) = .ok ⟨n, Metric⟩ := by
  have hsuf : parseSuffix ('B' :: []) = .ok 0 Metric := by decide
  by_cases hneg : n < 0
  · have hrepr : intRepr n ++ ' ' :: 'B' :: []
        = (if true then ['-'] else []) ++ (natRepr (-n).toNat ++ ' ' :: 'B' :: []) := by
      unfold intRepr
      rw [if_pos hneg]
      rfl
    rw [hrepr]
    have hscan := scan_shape true (natRepr (-n).toNat) ('B' :: [])
      (natRepr_ne_nil _) (natRepr_digits _)
    rw [parse_spec _ _ 0 Metric hscan hsuf]
    have he : exactBytes ⟨true, natRepr (-n).toNat, [], 'B' :: []⟩ 0 Metric = n := by
      rw [exactBytes_nofrac, if_pos rfl, natRepr_val, Int.toNat_of_nonneg (by omega), neg_neg]
    rw [he, if_pos ⟨h1, h2⟩]
  · have hrepr : intRepr n ++ ' ' :: 'B' :: []
        = (if false then ['-'] else []) ++ (natRepr n.toNat ++ ' ' :: 'B' :: []) := by
      unfold intRepr
      rw [if_neg hneg]
      rfl
    rw [hrepr]
    have hscan := scan_shape false (natRepr n.toNat) ('B' :: [])
      (natRepr_ne_nil _) (natRepr_digits _)
    rw [parse_spec _ _ 0 Metric hscan hsuf]
    have he : exactBytes ⟨false, natRepr n.toNat, [], 'B' :: []⟩ 0 Metric = n := by
      rw [exactBytes_nofrac, if_neg (by simp), natRepr_val, Int.toNat_of_nonneg (by omega)]
    rw [he, if_pos ⟨h1, h2⟩]

theorem dot_not_mem_repr_B (n : ℤ) : '.' ∉ intRepr n ++ ' ' :: 'B' :: [] := by
  intro hmem
  rcases List.mem_append.1 hmem with h | h
  · unfold intRepr at h
    by_cases hneg : n < 0
    · rw [if_pos hneg] at h
      rcases List.mem_cons.1 h with h2 | h2
      · exact absurd h2 (by decide)
      · exact absurd (natRepr_digits _ _ h2) (by decide)
    · rw [if_neg hneg] at h
      exact absurd (natRepr_digits _ _ h) (by decide)
  · rcases List.mem_cons.1 h with h2 | h2
    · exact absurd h2 (by decide)
    · rcases List.mem_cons.1 h2 with h3 | h3
      · exact absurd h3 (by decide)
      · cases h3

theorem scaleLoop_step (d : ℤ) (f : ℕ) (m : ℤ) (e : ℕ) :
    scaleLoop d (f + 1) m e
      = if (1000 ≤ m ∨ m ≤ -1000) ∧ m % d = 0 then scaleLoop d f (m / d) (e + 1)
        else (m, e) := rfl

theorem scaleLoop_exp_ge (d : ℤ) : ∀ (fuel : ℕ) (m : ℤ) (e : ℕ),
    e ≤ (scaleLoop d fuel m e).2 := by
  intro fuel
  induction fuel with
  | zero =>
    intro m e
    exact le_rfl
  | succ f ih =>
    intro m e
    rw [scaleLoop_step]
    split
    · exact le_trans (Nat.le_succ e) (ih (m / d) (e + 1))
    · exact le_rfl

theorem scaleLoop_exp_le (d : ℤ) : ∀ (fuel : ℕ) (m : ℤ) (e : ℕ),
    (scaleLoop d fuel m e).2 ≤ e + fuel := by
  intro fuel
  induction fuel with
  | zero =>
    intro m e
    exact Nat.le_add_right e 0
  | succ f ih =>
    intro m e
    rw [scaleLoop_step]
    split
    · have := ih (m / d) (e + 1)
      omega
    · omega

theorem scaleLoop_eq_self (d : ℤ) (fuel : ℕ) (m : ℤ) (e : ℕ)
    (h : (scaleLoop d fuel m e).2 = e) : (scaleLoop d fuel m e).1 = m := by
  cases fuel with
  | zero => rfl
  | succ f =>
    rw [scaleLoop_step] at h ⊢
    by_cases hc : (1000 ≤ m ∨ m ≤ -1000) ∧ m % d = 0
    · rw [if_pos hc] at h
      have := scaleLoop_exp_ge d f (m / d) (e + 1)
      exact absurd h (by omega)
    · rw [if_neg hc]

/-- If the scaling loop performed `j > 0` iterations, the starting mantissa had
magnitude at least `1000 * d^(j-1)`. -/
theorem scaleLoop_growth (d : ℤ) (hd : 2 ≤ d) : ∀ (fuel : ℕ) (m : ℤ) (e j : ℕ),
    (scaleLoop d fuel m e).2 = e + j → 0 < j →
    1000 * d ^ (j - 1) ≤ m ∨ m ≤ -(1000 * d ^ (j - 1)) := by
  intro fuel
  induction fuel with
  | zero =>
    intro m e j hres hj
    have h2 : e = e + j := hres
    omega
  | succ f ih =>
    intro m e j hres hj
    rw [scaleLoop_step] at hres
    by_cases hc : (1000 ≤ m ∨ m ≤ -1000) ∧ m % d = 0
    · rw [if_pos hc] at hres
      by_cases hj1 : j = 1
      · subst hj1
        simp only [Nat.sub_self, pow_zero, mul_one]
        exact hc.1
      · have hge2 : 2 ≤ j := by omega
        have hres' : (scaleLoop d f (m / d) (e + 1)).2 = (e + 1) + (j - 1) := by omega
        have ihres := ih (m / d) (e + 1) (j - 1) hres' (by omega)
        have hdvd : d ∣ m := Int.dvd_of_emod_eq_zero hc.2
        have hmul : m / d * d = m := Int.ediv_mul_cancel hdvd
        have hpow : d ^ (j - 1 - 1) * d = d ^ (j - 1) := by
          rw [← pow_succ]
          congr 1
          omega
        rcases ihres with h | h
        · left
          have hstep := mul_le_mul_of_nonneg_right h (by omega : (0 : ℤ) ≤ d)
          rw [hmul] at hstep
          calc 1000 * d ^ (j - 1) = 1000 * (d ^ (j - 1 - 1) * d) := by rw [hpow]
            _ = 1000 * d ^ (j - 1 - 1) * d := by ring
            _ ≤ m := hstep
        · right
          have hstep := mul_le_mul_of_nonneg_right h (by omega : (0 : ℤ) ≤ d)
          rw [hmul] at hstep
          calc m ≤ -(1000 * d ^ (j - 1 - 1)) * d := hstep
            _ = -(1000 * (d ^ (j - 1 - 1) * d)) := by ring
            _ = -(1000 * d ^ (j - 1)) := by rw [hpow]
    · rw [if_neg hc] at hres
      have h2 : e = e + j := hres
      omega

/-- C3: for every in-range byte count and every valid base, when `String`
selects the Byte unit the rendered text has no decimal point and re-parsing it
recovers a Size with the same `Int64()` value — the exact-byte path is
lossless at every magnitude. -/
theorem string_byte_roundtrip :
    ∀ n b : ℤ, -(2 ^ 63) ≤ n → n ≤ 2 ^ 63 - 1 → (b = 0 ∨ b = Metric ∨ b = Binary) →
    selectedExp ⟨n, b⟩ = 0 →
    ∃ out, sizeString ⟨n, b⟩ = some out ∧ '.' ∉ out ∧ parse out = .ok ⟨n, Metric⟩ := by
  intro n b h1 h2 hb hsel
  unfold selectedExp at hsel
  by_cases hmb : b = 0 ∨ b = Metric
  · have hcond : (Size.mk n b).base = 0 ∨ (Size.mk n b).base = Metric := hmb
    rw [if_pos hcond] at hsel
    have hmant : (scaleLoop 1000 7 n 0).1 = n := scaleLoop_eq_self 1000 7 n 0 hsel
    refine ⟨intRepr n ++ ' ' :: 'B' :: [], ?_, dot_not_mem_repr_B n, parse_intRepr_B n h1 h2⟩
    unfold sizeString
    rw [if_pos hcond]
    dsimp only
    rw [hmant, hsel]
    rfl
  · have hbin : b = Binary := by tauto
    have hcond : ¬((Size.mk n b).base = 0 ∨ (Size.mk n b).base = Metric) := hmb
    rw [if_neg hcond] at hsel
    have hmant : (scaleLoop 1024 7 n 0).1 = n := scaleLoop_eq_self 1024 7 n 0 hsel
    refine ⟨intRepr n ++ ' ' :: 'B' :: [], ?_, dot_not_mem_repr_B n, parse_intRepr_B n h1 h2⟩
    unfold sizeString
    rw [if_neg hcond, if_pos (show (Size.mk n b).base = Binary from hbin)]
    dsimp only
    rw [hmant, hsel]
    rfl

/-- Witness for `string_byte_roundtrip`: the concrete size 1234 B, Metric base
(1234 is not a multiple of 1000, so the selected unit is Byte). -/
theorem string_byte_roundtrip_witness :
    ∃ out, sizeString ⟨1234, Metric⟩ = some out ∧ '.' ∉ out
      ∧ parse out = .ok ⟨1234, Metric⟩ :=
  string_byte_roundtrip 1234 Metric (by decide) (by decide) (Or.inr (Or.inl rfl)) (by decide)

/-- C9: formatting is total for the unset, Metric and Binary bases — the panic
branch of `String` is reachable exactly for invalid `Base` values outside that
set — and for every int64 byte count the selected unit index stays within the
suffix tables (0..6), so the table indexing cannot fault. -/
theorem string_total_never_panics :
    (∀ n b : ℤ, (sizeString ⟨n, b⟩).isSome ↔ (b = 0 ∨ b = Metric ∨ b = Binary))
    ∧ (∀ n b : ℤ, -(2 ^ 63) ≤ n → n ≤ 2 ^ 63 - 1 → selectedExp ⟨n, b⟩ ≤ 6) := by
  constructor
  · intro n b
    unfold sizeString
    by_cases h1 : (Size.mk n b).base = 0 ∨ (Size.mk n b).base = Metric
    · rw [if_pos h1]
      simp only [Option.isSome_some, true_iff]
      tauto
    · by_cases h2 : (Size.mk n b).base = Binary
      · rw [if_neg h1, if_pos h2]
        simp only [Option.isSome_some, true_iff]
        tauto
      · rw [if_neg h1, if_neg h2]
        simp only [Option.isSome_none, Bool.false_eq_true, false_iff]
        tauto
  · intro n b hn1 hn2
    unfold selectedExp
    dsimp only
    split
    · by_contra hgt
      have hle := scaleLoop_exp_le 1000 7 n 0
      have h7 : (scaleLoop 1000 7 n 0).2 = 0 + 7 := by omega
      have hg := scaleLoop_growth 1000 (by norm_num) 7 n 0 7 h7 (by norm_num)
      norm_num at hg
      omega
    · by_contra hgt
      have hle := scaleLoop_exp_le 1024 7 n 0
      have h7 : (scaleLoop 1024 7 n 0).2 = 0 + 7 := by omega
      have hg := scaleLoop_growth 1024 (by norm_num) 7 n 0 7 h7 (by norm_num)
      norm_num at hg
      omega

/-- Witness for `string_total_never_panics`: the second conjunct instantiated
at 0 bytes, Metric base. -/
theorem string_total_never_panics_witness : selectedExp ⟨0, Metric⟩ ≤ 6 :=
  string_total_never_panics.2 0 Metric (by decide) (by decide)

/-- C10: `parse` accepts all three spellings of -2^63 (the sign is applied to
the unbounded value before the 64-bit range check) while the symmetric
positive value 2^63 is rejected with the overflow error. -/
theorem parse_min_int64_accepted :
    parse "-9223372036854775808".data = .ok ⟨-(2 ^ 63), Metric⟩
    ∧ parse "-8 EiB".data = .ok ⟨-(2 ^ 63), Binary⟩
    ∧ parse "-9.223372036854775808eb".data = .ok ⟨-(2 ^ 63), Metric⟩
    ∧ parse "9223372036854775808".data = .err .overflow := by
  refine ⟨by decide, by decide, by decide, by decide⟩

end Bytefmt

namespace ByteUnit

/-- C7 counterexample: at 2 fractional digits of precision, `Format` renders
14,996 bytes in kB as `"15.00 kB"` (fixed precision keeps trailing zeros), not
`"15 kB"` as claimed. -/
theorem format_14996_not_15kB :
    sizeFormat ⟨14996, Metric⟩ 2 ≠ "15 kB".data
    ∧ sizeFormat ⟨14996, Metric⟩ 2 = "15.00 kB".data := by
  refine ⟨by decide, by decide⟩

/-- C7 (amended): formatting 14,995 bytes as kB at 2 fractional digits yields
`"14.99 kB"` (the float64 quotient is just below the 14.995 tie), and
formatting 14,996 bytes the same way yields `"15.00 kB"`. -/
theorem format_precision_boundary :
    sizeFormat ⟨14995, Metric⟩ 2 = "14.99 kB".data
    ∧ sizeFormat ⟨14996, Metric⟩ 2 = "15.00 kB".data := by
  refine ⟨by decide, by decide⟩

end ByteUnit

